import Mathlib

/-!
Verification of the rust-simplicity crate's specification against a shallow
embedding of its source.  Strings that the Rust code scans byte-by-byte are
modelled as `List Nat` (UTF-8 bytes); machine integers are modelled as `Nat`
with explicit `% 2 ^ w` where wrap-around matters.
-/

set_option maxRecDepth 4000

namespace Simplicity

/-- Model of `miniscript::policy::concrete::PolicyError` (external crate),
restricted to the variants constructed by this repository's code
(`src/policy/ast.rs`). -/
inductive MsPolicyError where
  | NonBinaryArgAnd
  | NonBinaryArgOr
  deriving DecidableEq, Repr

/-- Model of `miniscript::Error` (external crate), restricted to the variants
that this repository's code constructs or that its expression parser model
needs.  Strings are byte lists. -/
inductive MsError where
  | Unprintable (b : Nat)
  | PolicyError (e : MsPolicyError)
  | Unexpected (s : List Nat)
  | ExpectedChar (c : Nat)
  | Trailing (s : List Nat)
  deriving DecidableEq, Repr

/-- The crate's error type, translated from `enum Error` in `src/lib.rs`
(lines 53–83).  `TooManyNodes` carries the `usize` node count as a `Nat`;
`ParseError` carries its static string payload; `MiniscriptError` wraps the
external miniscript error. -/
inductive Error where
  | TypeCheck
  | OccursCheck
  | BadIndex
  | NaturalOverflow
  | NonCaseHiddenChild
  | CaseMultipleHiddenChildren
  | EndOfStream
  | EmptyProgram
  | TooManyNodes (k : Nat)
  | ParseError (s : String)
  | NotInCanonicalOrder
  | InconsistentWitnessLength
  | SharingNotMaximal
  | MiniscriptError (e : MsError)
  deriving DecidableEq, Repr

namespace Error

/-- Constructor discriminant of `Error`, used to speak about "variants". -/
def tag : Error → Nat
  | .TypeCheck => 0
  | .OccursCheck => 1
  | .BadIndex => 2
  | .NaturalOverflow => 3
  | .NonCaseHiddenChild => 4
  | .CaseMultipleHiddenChildren => 5
  | .EndOfStream => 6
  | .EmptyProgram => 7
  | .TooManyNodes _ => 8
  | .ParseError _ => 9
  | .NotInCanonicalOrder => 10
  | .InconsistentWitnessLength => 11
  | .SharingNotMaximal => 12
  | .MiniscriptError _ => 13

/-- Whether an error is the `ParseError` variant. -/
def isParseError : Error → Bool
  | .ParseError _ => true
  | _ => false

/-- Whether an error is the `MiniscriptError` wrapper variant. -/
def isMiniscriptError : Error → Bool
  | .MiniscriptError _ => true
  | _ => false

/-- `impl fmt::Display for Error` from `src/lib.rs` (lines 85–116), translated
clause by clause.  The display of the wrapped external miniscript error is the
external crate's own rendering, so it is passed in as the parameter `msd`;
every other arm is the literal string written by the source. -/
def display (msd : MsError → String) : Error → String
  | .TypeCheck => "Unable to unify types in a DAG"
  | .OccursCheck => "A recursive type was inferred, violating the of the type inference engine"
  | .BadIndex => "Node made a back-reference past the beginning of the program"
  | .NaturalOverflow => "Number exceeded 32 bits"
  | .NonCaseHiddenChild => "Non-'case' nodes may not have hidden children"
  | .CaseMultipleHiddenChildren => "'case' nodes may have at most one hidden child"
  | .EndOfStream => "Bitstream ended early"
  | .EmptyProgram => "Program must not be empty"
  | .TooManyNodes k => "Tried to allocate too many nodes in a program: " ++ Nat.repr k
  | .ParseError s => "Unrecognized node " ++ s
  | .NotInCanonicalOrder => "Program is not in canonical order"
  | .InconsistentWitnessLength => "Witness has different length than defined in its preamble"
  | .SharingNotMaximal => "Decoded programs must have maximal sharing"
  | .MiniscriptError e => msd e

/-- `impl From<miniscript::Error> for Error` from `src/lib.rs` (lines 118–123). -/
def fromMiniscript (e : MsError) : Error := Error.MiniscriptError e

/-- Modelled from the spec: the decode module (`src/decode.rs`) is not part of
the provided sources, so the classification of which `Error` variants are
structural decode failures follows §4.1/§7 of the specification: the failure
modes of the DAG decoder's structural checks. -/
def structuralDecode : Error → Bool
  | .BadIndex => true
  | .NonCaseHiddenChild => true
  | .CaseMultipleHiddenChildren => true
  | .EmptyProgram => true
  | .EndOfStream => true
  | .TooManyNodes _ => true
  | .NotInCanonicalOrder => true
  | .SharingNotMaximal => true
  | _ => false

end Error

/-- Modelled from the spec: the decoder's final witness-framing check
(`src/decode.rs` is not in the provided sources).  Per §4.1/§6 the declared
bit-length from the preamble must exactly match the number of witness bits
actually consumed; any mismatch raises `InconsistentWitnessLength`. -/
def checkWitnessLength (declared consumed : Nat) : Except Error Unit :=
  if declared = consumed then Except.ok () else Except.error Error.InconsistentWitnessLength

/-- Modelled from the spec: the bounded natural-number decoder
(`src/decode.rs` is not in the provided sources).  Per §5 and the `Error`
documentation ("Number exceeded 32 bits"), a natural number is accepted only
when it fits the fixed 32-bit counter, and rejected with `NaturalOverflow`
otherwise. -/
def checkNatural (n : Nat) : Except Error Nat :=
  if n < 2 ^ 32 then Except.ok n else Except.error Error.NaturalOverflow

/-- Every other variant's display is a fixed string that does not start with
the character starting the `TooManyNodes` message, so the two can never be
equal whatever node count is interpolated. -/
theorem tooManyNodes_display_ne (n : Nat) (s : String) (h : s.data.head? ≠ some 'T') :
    ("Tried to allocate too many nodes in a program: " ++ Nat.repr n) ≠ s := by
  intro he
  apply h
  rw [← he]
  rfl

/-- C1: the `Error` variants classified as structural decode failures are
exactly the eight the spec lists — bad index, non-case hidden child, multiple
hidden children on one case, empty program, end-of-stream, too-many-nodes,
not-in-canonical-order and sharing-not-maximal — and those eight are pairwise
distinct variants. -/
theorem spec_C1 :
    (∀ e : Error, e.structuralDecode = true ↔
      (e = .BadIndex ∨ e = .NonCaseHiddenChild ∨ e = .CaseMultipleHiddenChildren ∨
        e = .EmptyProgram ∨ e = .EndOfStream ∨ (∃ n, e = .TooManyNodes n) ∨
        e = .NotInCanonicalOrder ∨ e = .SharingNotMaximal)) ∧
    ∀ n : Nat,
      ([Error.BadIndex, Error.NonCaseHiddenChild, Error.CaseMultipleHiddenChildren,
        Error.EmptyProgram, Error.EndOfStream, Error.TooManyNodes n,
        Error.NotInCanonicalOrder, Error.SharingNotMaximal]).Pairwise (· ≠ ·) := by
  constructor
  · intro e
    cases e <;> simp [Error.structuralDecode]
  · intro n
    simp [List.pairwise_cons]

/-- C2: converting an external miniscript error into the pipeline's error type
wraps it unchanged in `MiniscriptError`, and displaying the wrapped error
delegates to the wrapped error's own display. -/
theorem spec_C2 : ∀ (msd : MsError → String) (e : MsError),
    Error.fromMiniscript e = Error.MiniscriptError e ∧
    (Error.fromMiniscript e).display msd = msd e :=
  fun _ _ => ⟨rfl, rfl⟩

/-- C3: the unification-conflict error (`TypeCheck`) and the occurs-check
error (`OccursCheck`) are distinct variants with distinct display messages. -/
theorem spec_C3 :
    Error.TypeCheck ≠ Error.OccursCheck ∧
    ∀ msd : MsError → String,
      Error.display msd Error.TypeCheck ≠ Error.display msd Error.OccursCheck := by
  refine ⟨by decide, fun msd => ?_⟩
  simp only [Error.display]
  decide

/-- C4: errors of distinct variants — other than the upstream wrapper
`MiniscriptError` and the payload-carrying `ParseError` — always display as
distinct strings, and the `TooManyNodes` display includes the offending node
count it carries. -/
theorem spec_C4 :
    (∀ (msd : MsError → String) (e1 e2 : Error),
      e1.tag ≠ e2.tag →
      e1.isParseError = false → e1.isMiniscriptError = false →
      e2.isParseError = false → e2.isMiniscriptError = false →
      e1.display msd ≠ e2.display msd) ∧
    ∀ (msd : MsError → String) (n : Nat),
      (Error.TooManyNodes n).display msd =
        "Tried to allocate too many nodes in a program: " ++ Nat.repr n := by
  refine ⟨?_, fun _ _ => rfl⟩
  intro msd e1 e2 htag hp1 hm1 hp2 hm2 he
  cases e1 <;> cases e2 <;>
    simp only [Error.tag, Error.isParseError, Error.isMiniscriptError, Error.display] at *
  all_goals try exact htag rfl
  all_goals try exact Bool.noConfusion hp1
  all_goals try exact Bool.noConfusion hm1
  all_goals try exact Bool.noConfusion hp2
  all_goals try exact Bool.noConfusion hm2
  all_goals try exact absurd he (by decide)
  all_goals try exact tooManyNodes_display_ne _ _ (by decide) he
  all_goals exact tooManyNodes_display_ne _ _ (by decide) he.symm

/-- Witness for C4 at a concrete pair of variants. -/
theorem spec_C4_witness :
    Error.display (fun _ => "") Error.TypeCheck ≠ Error.display (fun _ => "") Error.BadIndex :=
  spec_C4.1 (fun _ => "") Error.TypeCheck Error.BadIndex (by decide) rfl rfl rfl rfl

/-- C5: the witness-framing check raises the dedicated
`InconsistentWitnessLength` variant exactly when the declared and consumed
bit-lengths differ (in either direction), succeeds exactly when they agree,
and that variant is distinct from every other variant of the error type. -/
theorem spec_C5 :
    (∀ declared consumed : Nat,
      checkWitnessLength declared consumed = Except.error Error.InconsistentWitnessLength ↔
        declared ≠ consumed) ∧
    (∀ declared consumed : Nat,
      checkWitnessLength declared consumed = Except.ok () ↔ declared = consumed) ∧
    ∀ e : Error, e.tag = Error.InconsistentWitnessLength.tag ↔ e = Error.InconsistentWitnessLength := by
  refine ⟨fun d c => ?_, fun d c => ?_, fun e => ?_⟩
  · unfold checkWitnessLength
    split <;> simp_all
  · unfold checkWitnessLength
    split <;> simp_all
  · cases e <;> simp [Error.tag]

/-- C6: the bounded natural-number check rejects a number with the dedicated
`NaturalOverflow` error exactly when it exceeds 32 bits, accepts it unchanged
exactly when it fits in 32 bits, and the error's message names the 32-bit
width. -/
theorem spec_C6 :
    (∀ n : Nat, checkNatural n = Except.error Error.NaturalOverflow ↔ 2 ^ 32 ≤ n) ∧
    (∀ n : Nat, checkNatural n = Except.ok n ↔ n < 2 ^ 32) ∧
    ∀ msd : MsError → String,
      Error.display msd Error.NaturalOverflow = "Number exceeded 32 bits" := by
  refine ⟨fun n => ?_, fun n => ?_, fun _ => rfl⟩
  · unfold checkNatural
    split <;> simp_all
  · unfold checkNatural
    split <;> simp_all

/-! ### Policies (`src/policy/ast.rs`) -/

/-- `enum Policy<Pk: MiniscriptKey>` from `src/policy/ast.rs` (lines 46–65).
The key type `Pk` and the external `bitcoin_hashes::sha256::Hash` type are
type parameters; `After`/`Older` carry their `u32` payloads and `Threshold`
its `usize` payload as `Nat`. -/
inductive Policy (Pk : Type) (H : Type) where
  | Unsatisfiable
  | Trivial
  | Key (pk : Pk)
  | After (n : Nat)
  | Older (n : Nat)
  | Sha256 (h : H)
  | And (subs : List (Policy Pk H))
  | Or (subs : List (Policy Pk H))
  | Threshold (k : Nat) (subs : List (Policy Pk H))

variable {Pk H Q : Type} {E : Type}

mutual
/-- `Policy::translate` from `src/policy/ast.rs` (lines 78–108): convert a
policy using one kind of public key to another, arm by arm in source order;
the `Vec` collections of `Result`s short-circuit at the first error exactly as
`Policy.translateList` does. -/
def Policy.translate (f : Pk → Except E Q) : Policy Pk H → Except E (Policy Q H)
  | .Unsatisfiable => .ok .Unsatisfiable
  | .Trivial => .ok .Trivial
  | .Key pk => (f pk).map .Key
  | .Sha256 h => .ok (.Sha256 h)
  | .After n => .ok (.After n)
  | .Older n => .ok (.Older n)
  | .Threshold k subs => (Policy.translateList f subs).map (.Threshold k)
  | .And subs => (Policy.translateList f subs).map .And
  | .Or subs => (Policy.translateList f subs).map .Or
/-- The `subs.iter().map(|sub| sub.translate(&mut translatefpk)).collect::<Result<Vec<_>, E>>()`
pattern of `Policy::translate`: left-to-right, stopping at the first error. -/
def Policy.translateList (f : Pk → Except E Q) : List (Policy Pk H) → Except E (List (Policy Q H))
  | [] => .ok []
  | p :: ps =>
      match Policy.translate f p with
      | .error e => .error e
      | .ok q =>
          match Policy.translateList f ps with
          | .error e => .error e
          | .ok qs => .ok (q :: qs)
end

mutual
/-- The keys occurring in a policy, in left-to-right traversal order
(characterisation used to state what `Policy::translate` does). -/
def Policy.keys : Policy Pk H → List Pk
  | .Unsatisfiable => []
  | .Trivial => []
  | .Key pk => [pk]
  | .Sha256 _ => []
  | .After _ => []
  | .Older _ => []
  | .Threshold _ subs => Policy.keysList subs
  | .And subs => Policy.keysList subs
  | .Or subs => Policy.keysList subs
/-- Keys of a list of policies, concatenated left to right. -/
def Policy.keysList : List (Policy Pk H) → List Pk
  | [] => []
  | p :: ps => Policy.keys p ++ Policy.keysList ps
end

mutual
/-- The pure structure-preserving key map (characterisation used to state
what `Policy::translate` does): every constructor, sub-policy count,
threshold, timelock number and hash image is kept, and each `Key` leaf is
mapped through `g`. -/
def Policy.mapKeys (g : Pk → Q) : Policy Pk H → Policy Q H
  | .Unsatisfiable => .Unsatisfiable
  | .Trivial => .Trivial
  | .Key pk => .Key (g pk)
  | .Sha256 h => .Sha256 h
  | .After n => .After n
  | .Older n => .Older n
  | .Threshold k subs => .Threshold k (Policy.mapKeysList g subs)
  | .And subs => .And (Policy.mapKeysList g subs)
  | .Or subs => .Or (Policy.mapKeysList g subs)
/-- `Policy.mapKeys` over a list of policies. -/
def Policy.mapKeysList (g : Pk → Q) : List (Policy Pk H) → List (Policy Q H)
  | [] => []
  | p :: ps => Policy.mapKeys g p :: Policy.mapKeysList g ps
end

/-- Induction principle for the nested inductive `Policy`, giving the
member-wise induction hypothesis at `And`/`Or`/`Threshold` nodes. -/
def Policy.inductionOn {motive : Policy Pk H → Prop}
    (hU : motive .Unsatisfiable) (hT : motive .Trivial)
    (hK : ∀ pk, motive (.Key pk)) (hA : ∀ n, motive (.After n))
    (hO : ∀ n, motive (.Older n)) (hS : ∀ h, motive (.Sha256 h))
    (hAnd : ∀ subs, (∀ p ∈ subs, motive p) → motive (.And subs))
    (hOr : ∀ subs, (∀ p ∈ subs, motive p) → motive (.Or subs))
    (hTh : ∀ k subs, (∀ p ∈ subs, motive p) → motive (.Threshold k subs)) :
    ∀ p, motive p
  | .Unsatisfiable => hU
  | .Trivial => hT
  | .Key pk => hK pk
  | .After n => hA n
  | .Older n => hO n
  | .Sha256 h => hS h
  | .And subs => hAnd subs (fun p _ =>
      Policy.inductionOn hU hT hK hA hO hS hAnd hOr hTh p)
  | .Or subs => hOr subs (fun p _ =>
      Policy.inductionOn hU hT hK hA hO hS hAnd hOr hTh p)
  | .Threshold k subs => hTh k subs (fun p _ =>
      Policy.inductionOn hU hT hK hA hO hS hAnd hOr hTh p)
termination_by p => sizeOf p
decreasing_by all_goals (simp_wf; rename_i hp; have := List.sizeOf_lt_of_mem hp; omega)

theorem Policy.mem_keysList {k : Pk} {p : Policy Pk H} {subs : List (Policy Pk H)}
    (hp : p ∈ subs) (hk : k ∈ p.keys) : k ∈ Policy.keysList subs := by
  induction subs with
  | nil => cases hp
  | cons q qs ih =>
    rw [Policy.keysList]
    rcases List.mem_cons.mp hp with rfl | hp'
    · exact List.mem_append.mpr (Or.inl hk)
    · exact List.mem_append.mpr (Or.inr (ih hp'))

theorem Policy.translateList_ok {f : Pk → Except E Q} {g : Pk → Q}
    {subs : List (Policy Pk H)}
    (h : ∀ s ∈ subs, Policy.translate f s = .ok (Policy.mapKeys g s)) :
    Policy.translateList f subs = .ok (Policy.mapKeysList g subs) := by
  induction subs with
  | nil => simp [Policy.translateList, Policy.mapKeysList]
  | cons p ps ih =>
    rw [Policy.translateList, h p (by simp), ih (fun s hs => h s (by simp [hs]))]
    rfl

theorem Policy.translate_mapKeys {f : Pk → Except E Q} {g : Pk → Q} :
    ∀ p : Policy Pk H, (∀ k ∈ p.keys, f k = .ok (g k)) →
      p.translate f = .ok (p.mapKeys g) := by
  refine Policy.inductionOn ?_ ?_ ?_ ?_ ?_ ?_ ?_ ?_ ?_
  · intro _; rfl
  · intro _; rfl
  · intro pk hall
    have := hall pk (by simp [Policy.keys])
    simp [Policy.translate, Policy.mapKeys, this, Except.map]
  · intro n _; rfl
  · intro n _; rfl
  · intro h _; rfl
  · intro subs ih hall
    rw [Policy.translate,
      Policy.translateList_ok (fun s hs => ih s hs fun k hk =>
        hall k (by rw [Policy.keys]; exact Policy.mem_keysList hs hk))]
    rfl
  · intro subs ih hall
    rw [Policy.translate,
      Policy.translateList_ok (fun s hs => ih s hs fun k hk =>
        hall k (by rw [Policy.keys]; exact Policy.mem_keysList hs hk))]
    rfl
  · intro k subs ih hall
    rw [Policy.translate,
      Policy.translateList_ok (fun s hs => ih s hs fun k hk =>
        hall k (by rw [Policy.keys]; exact Policy.mem_keysList hs hk))]
    rfl

theorem Policy.mapKeysList_id {subs : List (Policy Pk H)}
    (h : ∀ p ∈ subs, Policy.mapKeys (fun k => k) p = p) :
    Policy.mapKeysList (fun k => k) subs = subs := by
  induction subs with
  | nil => rfl
  | cons p ps ih =>
    rw [Policy.mapKeysList, h p (by simp), ih (fun s hs => h s (by simp [hs]))]

theorem Policy.mapKeys_id : ∀ p : Policy Pk H, Policy.mapKeys (fun k => k) p = p := by
  refine Policy.inductionOn rfl rfl (fun _ => rfl) (fun _ => rfl) (fun _ => rfl) (fun _ => rfl)
    ?_ ?_ ?_
  · intro subs ih
    rw [Policy.mapKeys, Policy.mapKeysList_id ih]
  · intro subs ih
    rw [Policy.mapKeys, Policy.mapKeysList_id ih]
  · intro k subs ih
    rw [Policy.mapKeys, Policy.mapKeysList_id ih]

theorem Policy.translateList_error {f : Pk → Except E Q} {subs : List (Policy Pk H)} {e : E}
    (h : Policy.translateList f subs = .error e) :
    ∃ s ∈ subs, Policy.translate f s = .error e := by
  induction subs with
  | nil => simp [Policy.translateList] at h
  | cons p ps ih =>
    rw [Policy.translateList] at h
    cases htp : Policy.translate f p with
    | error e' =>
      rw [htp] at h
      cases h
      exact ⟨p, by simp, htp⟩
    | ok q =>
      rw [htp] at h
      cases htl : Policy.translateList f ps with
      | error e' =>
        rw [htl] at h
        cases h
        obtain ⟨s, hs, hse⟩ := ih htl
        exact ⟨s, by simp [hs], hse⟩
      | ok qs =>
        rw [htl] at h
        cases h

theorem Policy.translateList_ok_mem {f : Pk → Except E Q} {subs : List (Policy Pk H)}
    {l : List (Policy Q H)} (h : Policy.translateList f subs = .ok l) :
    ∀ s ∈ subs, ∃ q, Policy.translate f s = .ok q := by
  induction subs generalizing l with
  | nil => intro s hs; cases hs
  | cons p ps ih =>
    rw [Policy.translateList] at h
    cases htp : Policy.translate f p with
    | error e' => rw [htp] at h; cases h
    | ok q =>
      rw [htp] at h
      cases htl : Policy.translateList f ps with
      | error e' => rw [htl] at h; cases h
      | ok qs =>
        intro s hs
        rcases List.mem_cons.mp hs with rfl | hs'
        · exact ⟨q, htp⟩
        · exact ih htl s hs'

theorem Policy.translate_error {f : Pk → Except E Q} :
    ∀ p : Policy Pk H, ∀ e : E, p.translate f = .error e →
      ∃ k ∈ p.keys, f k = .error e := by
  refine Policy.inductionOn ?_ ?_ ?_ ?_ ?_ ?_ ?_ ?_ ?_
  · intro e h; cases h
  · intro e h; cases h
  · intro pk e h
    rw [Policy.translate] at h
    cases hf : f pk with
    | error e' => rw [hf] at h; cases h; exact ⟨pk, by simp [Policy.keys], hf⟩
    | ok q => rw [hf] at h; cases h
  · intro n e h; cases h
  · intro n e h; cases h
  · intro hh e h; cases h
  · intro subs ih e h
    rw [Policy.translate] at h
    cases htl : Policy.translateList f subs with
    | error e' =>
      rw [htl] at h; cases h
      obtain ⟨s, hs, hse⟩ := Policy.translateList_error htl
      obtain ⟨k, hk, hke⟩ := ih s hs e hse
      exact ⟨k, by rw [Policy.keys]; exact Policy.mem_keysList hs hk, hke⟩
    | ok l => rw [htl] at h; cases h
  · intro subs ih e h
    rw [Policy.translate] at h
    cases htl : Policy.translateList f subs with
    | error e' =>
      rw [htl] at h; cases h
      obtain ⟨s, hs, hse⟩ := Policy.translateList_error htl
      obtain ⟨k, hk, hke⟩ := ih s hs e hse
      exact ⟨k, by rw [Policy.keys]; exact Policy.mem_keysList hs hk, hke⟩
    | ok l => rw [htl] at h; cases h
  · intro kk subs ih e h
    rw [Policy.translate] at h
    cases htl : Policy.translateList f subs with
    | error e' =>
      rw [htl] at h; cases h
      obtain ⟨s, hs, hse⟩ := Policy.translateList_error htl
      obtain ⟨k, hk, hke⟩ := ih s hs e hse
      exact ⟨k, by rw [Policy.keys]; exact Policy.mem_keysList hs hk, hke⟩
    | ok l => rw [htl] at h; cases h

theorem Policy.keysList_mem_exists {k : Pk} {subs : List (Policy Pk H)}
    (hk : k ∈ Policy.keysList subs) : ∃ s ∈ subs, k ∈ s.keys := by
  induction subs with
  | nil => cases hk
  | cons p ps ih =>
    rw [Policy.keysList] at hk
    rcases List.mem_append.mp hk with h | h
    · exact ⟨p, by simp, h⟩
    · obtain ⟨s, hs, hse⟩ := ih h
      exact ⟨s, by simp [hs], hse⟩

theorem Policy.translate_ok_keys {f : Pk → Except E Q} :
    ∀ p : Policy Pk H, ∀ q : Policy Q H, p.translate f = .ok q →
      ∀ k ∈ p.keys, ∃ r, f k = .ok r := by
  refine Policy.inductionOn ?_ ?_ ?_ ?_ ?_ ?_ ?_ ?_ ?_
  · intro q h k hk; cases hk
  · intro q h k hk; cases hk
  · intro pk q h k hk
    rw [Policy.keys] at hk
    rcases List.mem_cons.mp hk with rfl | hk'
    · cases hf : f k with
      | error e' =>
        rw [Policy.translate, hf] at h
        simp [Except.map] at h
      | ok r => exact ⟨r, rfl⟩
    · cases hk'
  · intro n q h k hk; cases hk
  · intro n q h k hk; cases hk
  · intro hh q h k hk; cases hk
  · intro subs ih q h k hk
    rw [Policy.translate] at h
    cases htl : Policy.translateList f subs with
    | error e' => rw [htl] at h; cases h
    | ok l =>
      rw [Policy.keys] at hk
      obtain ⟨s, hs, hse⟩ := Policy.keysList_mem_exists hk
      obtain ⟨qq, hq⟩ := Policy.translateList_ok_mem htl s hs
      exact ih s hs qq hq k hse
  · intro subs ih q h k hk
    rw [Policy.translate] at h
    cases htl : Policy.translateList f subs with
    | error e' => rw [htl] at h; cases h
    | ok l =>
      rw [Policy.keys] at hk
      obtain ⟨s, hs, hse⟩ := Policy.keysList_mem_exists hk
      obtain ⟨qq, hq⟩ := Policy.translateList_ok_mem htl s hs
      exact ih s hs qq hq k hse
  · intro kk subs ih q h k hk
    rw [Policy.translate] at h
    cases htl : Policy.translateList f subs with
    | error e' => rw [htl] at h; cases h
    | ok l =>
      rw [Policy.keys] at hk
      obtain ⟨s, hs, hse⟩ := Policy.keysList_mem_exists hk
      obtain ⟨qq, hq⟩ := Policy.translateList_ok_mem htl s hs
      exact ih s hs qq hq k hse

/-- C8: `Policy::translate` is the structure-preserving key map.  When the
translation function succeeds on every key occurring in the policy it returns
`Ok` of `mapKeys` (same constructor tree, same sub-policy lists, thresholds,
timelock numbers and hash images, with each `Key` leaf mapped); translating
with the identity returns the policy unchanged; and it returns an error
exactly when the translation function fails on some occurring key, the error
being one produced by that function. -/
theorem spec_C8 :
    ∀ (Pk H Q E : Type) (f : Pk → Except E Q) (g : Pk → Q) (p : Policy Pk H),
      ((∀ k ∈ p.keys, f k = Except.ok (g k)) → p.translate f = Except.ok (p.mapKeys g)) ∧
      (p.translate (fun k => (Except.ok k : Except E Pk)) = Except.ok p) ∧
      (∀ e : E, p.translate f = Except.error e → ∃ k ∈ p.keys, f k = Except.error e) ∧
      ((∃ k ∈ p.keys, ∃ e : E, f k = Except.error e) →
        ∃ e : E, p.translate f = Except.error e) := by
  intro Pk H Q E f g p
  refine ⟨Policy.translate_mapKeys p, ?_, Policy.translate_error p, ?_⟩
  · rw [Policy.translate_mapKeys p (fun k _ => rfl), Policy.mapKeys_id]
  · intro ⟨k, hk, e, hke⟩
    cases h : Policy.translate f p with
    | error e' => exact ⟨e', rfl⟩
    | ok q =>
      obtain ⟨r, hr⟩ := Policy.translate_ok_keys p q h k hk
      rw [hr] at hke
      cases hke

/-- Witness for C8 at a concrete policy and translation function. -/
theorem spec_C8_witness :
    Policy.translate (fun k => (Except.ok (k + 1) : Except Unit Nat))
        (Policy.And [Policy.Key 3, Policy.Trivial] : Policy Nat Unit) =
      Except.ok (Policy.mapKeys (fun k => k + 1)
        (Policy.And [Policy.Key 3, Policy.Trivial])) :=
  (spec_C8 Nat Unit Nat Unit (fun k => (Except.ok (k + 1) : Except Unit Nat))
      (fun k => k + 1) (Policy.And [Policy.Key 3, Policy.Trivial])).1 (fun _ _ => rfl)

/-! ### Policy parsing and printing (`src/policy/ast.rs`, `Display`,
`FromStr`, `expression::FromTree`)

Rust iterates strings byte-by-byte (`s.as_bytes()`), so strings are modelled
as `List Nat` of UTF-8 bytes.  The byte values used by the grammar are
`40 = '('`, `41 = ')'`, `44 = ','`. -/

/-- Bytes of an ASCII string literal. -/
def str2b (s : String) : List Nat := s.data.map Char.toNat

/-- The three delimiter bytes of the external expression grammar:
`'('`, `')'` and `','`. -/
def isDelim (b : Nat) : Bool := b == 40 || b == 41 || b == 44

/-- Model of `miniscript::expression::Tree` (external crate): a function name
and a list of sub-expressions. -/
inductive Tree where
  | mk (name : List Nat) (args : List Tree)

/-- The name component of a `Tree`. -/
def Tree.name : Tree → List Nat
  | .mk n _ => n

/-- The argument list of a `Tree`. -/
def Tree.args : Tree → List Tree
  | .mk _ a => a

mutual
/-- The canonical textual form of a `Tree`: `name` for a leaf and
`name(arg1,...,argN)` otherwise.  This is the shape the `Display`
implementation of `Policy` emits. -/
def Tree.print : Tree → List Nat
  | .mk name [] => name
  | .mk name (a :: as) => name ++ 40 :: Tree.printArgs a as ++ [41]
termination_by t => sizeOf t
decreasing_by all_goals (simp_wf; try omega)
/-- Comma-separated rendering of a nonempty argument list. -/
def Tree.printArgs : Tree → List Tree → List Nat
  | a, [] => Tree.print a
  | a, b :: bs => Tree.print a ++ 44 :: Tree.printArgs b bs
termination_by a as => sizeOf a + sizeOf as
decreasing_by all_goals (simp_wf; try omega)
end

mutual
/-- Model of the recursive descent in `miniscript::expression::Tree::from_str`
(external crate): read a name up to the first delimiter; a following `'('`
opens an argument list whose items are separated by `','` and closed by
`')'`.  The parser is fueled to make the recursion structural; the fuel
argument strictly dominates the call depth for any input the top-level entry
point supplies. -/
def parseTree : Nat → List Nat → Except MsError (Tree × List Nat)
  | 0, _ => .error (MsError.Unexpected [])
  | fuel + 1, s =>
      let name := s.takeWhile (fun b => !isDelim b)
      match s.drop name.length with
      | 40 :: rest2 =>
          match parseArgs fuel rest2 with
          | .error e => .error e
          | .ok (args, rest3) => .ok (Tree.mk name args, rest3)
      | rest => .ok (Tree.mk name [], rest)
/-- Parse `arg (',' arg)* ')'`. -/
def parseArgs : Nat → List Nat → Except MsError (List Tree × List Nat)
  | 0, _ => .error (MsError.Unexpected [])
  | fuel + 1, s =>
      match parseTree fuel s with
      | .error e => .error e
      | .ok (t, rest) =>
          match rest with
          | 44 :: rest2 =>
              match parseArgs fuel rest2 with
              | .error e => .error e
              | .ok (ts, rest3) => .ok (t :: ts, rest3)
          | 41 :: rest2 => .ok ([t], rest2)
          | _ => .error (MsError.ExpectedChar 44)
end

/-- Model of `miniscript::expression::Tree::from_str` (external crate): parse
one tree and require the whole input consumed. -/
def Tree.fromStr (s : List Nat) : Except MsError Tree :=
  match parseTree (s.length + 1) s with
  | .error e => .error e
  | .ok (t, []) => .ok t
  | .ok (_, rem) => .error (MsError.Trailing rem)

mutual
/-- Call-depth bound of `parseTree` on the printed form of a tree. -/
def Tree.dFuel : Tree → Nat
  | .mk _ args => 1 + Tree.dList args
termination_by t => sizeOf t
decreasing_by all_goals (simp_wf; try omega)
/-- Call-depth bound of `parseArgs` on a printed argument list. -/
def Tree.dList : List Tree → Nat
  | [] => 0
  | a :: as => 1 + max (Tree.dFuel a) (Tree.dList as)
termination_by as => sizeOf as
decreasing_by all_goals (simp_wf; try omega)
end

mutual
/-- All names inside a tree are free of delimiter bytes. -/
def Tree.namesOk : Tree → Bool
  | .mk name args => name.all (fun b => !isDelim b) && Tree.namesOkList args
termination_by t => sizeOf t
decreasing_by all_goals (simp_wf; try omega)
/-- `Tree.namesOk` over a list. -/
def Tree.namesOkList : List Tree → Bool
  | [] => true
  | a :: as => Tree.namesOk a && Tree.namesOkList as
termination_by as => sizeOf as
decreasing_by all_goals (simp_wf; try omega)
end

/-- Induction principle for the nested inductive `Tree`. -/
def Tree.inductionOn {motive : Tree → Prop}
    (h : ∀ name args, (∀ t ∈ args, motive t) → motive (.mk name args)) : ∀ t, motive t
  | .mk name args => h name args (fun t _ => Tree.inductionOn h t)
termination_by t => sizeOf t
decreasing_by simp_wf; rename_i hp; have := List.sizeOf_lt_of_mem hp; omega

theorem takeWhile_append_delim {name l : List Nat}
    (h : name.all (fun b => !isDelim b) = true)
    (hl : l = [] ∨ ∃ b t, l = b :: t ∧ isDelim b = true) :
    (name ++ l).takeWhile (fun b => !isDelim b) = name := by
  induction name with
  | nil =>
    rcases hl with rfl | ⟨b, t, rfl, hb⟩
    · rfl
    · simp [List.takeWhile_cons, hb]
  | cons a name ih =>
    rw [List.all_cons, Bool.and_eq_true] at h
    simp [List.takeWhile_cons, h.1, ih h.2]

/-- Parsing inverts printing: with enough fuel, the parser applied to a
printed tree followed by a separator (or nothing) returns exactly that tree,
provided no name contains a delimiter byte. -/
theorem parseTree_print (fuel : Nat) :
    (∀ (t : Tree) (rest : List Nat), Tree.dFuel t ≤ fuel → Tree.namesOk t = true →
      (rest = [] ∨ ∃ b t', rest = b :: t' ∧ (b = 41 ∨ b = 44)) →
      parseTree fuel (t.print ++ rest) = .ok (t, rest)) ∧
    (∀ (a : Tree) (as : List Tree) (rest : List Nat),
      Tree.dList (a :: as) ≤ fuel → Tree.namesOkList (a :: as) = true →
      parseArgs fuel (Tree.printArgs a as ++ 41 :: rest) = .ok (a :: as, rest)) := by
  induction fuel with
  | zero =>
    constructor
    · intro t rest hf _ _
      exfalso
      cases t
      rw [Tree.dFuel] at hf
      omega
    · intro a as rest hf _
      exfalso
      rw [Tree.dList] at hf
      omega
  | succ fuel ih =>
    constructor
    · intro t rest hf hn hr
      cases t with
      | mk name args =>
        rw [Tree.namesOk, Bool.and_eq_true] at hn
        cases args with
        | nil =>
          rw [Tree.print]
          simp only [parseTree]
          rw [takeWhile_append_delim hn.1 (by
            rcases hr with rfl | ⟨b, t', rfl, hb⟩
            · exact Or.inl rfl
            · exact Or.inr ⟨b, t', rfl, by rcases hb with rfl | rfl <;> rfl⟩)]
          rw [List.drop_left]
          rcases hr with rfl | ⟨b, t', rfl, hb⟩
          · rfl
          · rcases hb with rfl | rfl <;> rfl
        | cons a as =>
          rw [Tree.print]
          simp only [List.append_assoc, List.cons_append, List.singleton_append]
          simp only [parseTree]
          rw [takeWhile_append_delim hn.1 (Or.inr ⟨40, _, rfl, rfl⟩)]
          rw [List.drop_left]
          rw [Tree.dFuel] at hf
          simp only [List.nil_append]
          rw [ih.2 a as rest (by omega) hn.2]
    · intro a as rest hf hn
      rw [Tree.dList] at hf
      rw [Tree.namesOkList, Bool.and_eq_true] at hn
      cases as with
      | nil =>
        rw [Tree.printArgs]
        simp only [parseArgs]
        have hm : max (Tree.dFuel a) (Tree.dList ([] : List Tree)) ≤ fuel := by omega
        rw [ih.1 a (41 :: rest)
          (le_trans (le_max_left _ _) hm) hn.1 (Or.inr ⟨41, rest, rfl, Or.inl rfl⟩)]
      | cons b bs =>
        rw [Tree.printArgs]
        simp only [List.append_assoc, List.cons_append]
        simp only [parseArgs]
        have hm : max (Tree.dFuel a) (Tree.dList (b :: bs)) ≤ fuel := by omega
        rw [ih.1 a (44 :: (Tree.printArgs b bs ++ 41 :: rest))
          (le_trans (le_max_left _ _) hm) hn.1 (Or.inr ⟨44, _, rfl, Or.inr rfl⟩)]
        simp only []
        rw [ih.2 b bs rest (le_trans (le_max_right _ _) hm) hn.2]

theorem Tree.dList_le_printArgs :
    ∀ (a : Tree) (as : List Tree),
      (∀ t ∈ a :: as, Tree.dFuel t ≤ (Tree.print t).length + 1) →
      Tree.dList (a :: as) ≤ (Tree.printArgs a as).length + 2 := by
  intro a as
  induction as generalizing a with
  | nil =>
    intro h
    have := h a (by simp)
    rw [Tree.dList, Tree.dList, Tree.printArgs]
    simp only [Nat.max_zero]
    omega
  | cons b bs ih =>
    intro h
    have h1 := h a (by simp)
    have h2 := ih b (fun t ht => h t (by
      rcases List.mem_cons.mp ht with rfl | ht'
      · simp
      · simp [ht']))
    rw [Tree.dList, Tree.printArgs]
    have hm : max (Tree.dFuel a) (Tree.dList (b :: bs)) ≤
        (Tree.print a).length + (Tree.printArgs b bs).length + 2 :=
      max_le (by omega) (by omega)
    simp only [List.length_append, List.length_cons]
    omega

theorem Tree.dFuel_le : ∀ t : Tree, Tree.dFuel t ≤ (Tree.print t).length + 1 := by
  refine Tree.inductionOn ?_
  intro name args ih
  cases args with
  | nil =>
    rw [Tree.dFuel, Tree.dList, Tree.print]
    omega
  | cons a as =>
    rw [Tree.dFuel, Tree.print]
    have hlist := Tree.dList_le_printArgs a as ih
    simp only [List.length_append, List.length_cons]
    omega

/-- Full round trip at the tree level: parsing the printed form of a tree
whose names are delimiter-free returns exactly that tree. -/
theorem Tree.fromStr_print (t : Tree) (hn : Tree.namesOk t = true) :
    Tree.fromStr t.print = .ok t := by
  rw [Tree.fromStr]
  have h := (parseTree_print (t.print.length + 1)).1 t []
    (le_trans (Tree.dFuel_le t) (by omega)) hn (Or.inl rfl)
  rw [List.append_nil] at h
  rw [h]

/-- Decimal byte rendering of a natural number, as Rust's `{}` formatting of
`u32`/`usize` produces it. -/
def natBytes (n : Nat) : List Nat :=
  if n = 0 then [48] else (Nat.digits 10 n).reverse.map (fun d => d + 48)

/-- Model of `miniscript::expression::parse_num` composed with
`u32::from_str` (external crate): a nonempty all-digit string without a
redundant leading zero, whose value fits in 32 bits.  The exact error payload
of the external crate is immaterial and modelled as `Unexpected`. -/
def parseNum (s : List Nat) : Except MsError Nat :=
  if s ≠ [] ∧ (∀ b ∈ s, 48 ≤ b ∧ b ≤ 57) ∧ (1 < s.length → s.head? ≠ some 48) ∧
      Nat.ofDigits 10 ((s.map (fun b => b - 48)).reverse) < 2 ^ 32
  then .ok (Nat.ofDigits 10 ((s.map (fun b => b - 48)).reverse))
  else .error (MsError.Unexpected s)

theorem parseNum_natBytes (n : Nat) (h : n < 2 ^ 32) : parseNum (natBytes n) = .ok n := by
  rcases Nat.eq_zero_or_pos n with rfl | hn
  · rfl
  have hn0 : n ≠ 0 := Nat.pos_iff_ne_zero.mp hn
  rw [natBytes, if_neg hn0]
  have hv : Nat.ofDigits 10
      ((((Nat.digits 10 n).reverse.map (fun d => d + 48)).map (fun b => b - 48)).reverse) = n := by
    rw [List.map_map]
    have hc : ((fun b => b - 48) ∘ fun d => d + 48) = id := funext (fun d => by simp)
    rw [hc, List.map_id, List.reverse_reverse, Nat.ofDigits_digits]
  rw [parseNum, if_pos, hv]
  refine ⟨?_, ?_, ?_, ?_⟩
  · simp [Nat.digits_ne_nil_iff_ne_zero.mpr hn0]
  · intro b hb
    simp only [List.mem_map, List.mem_reverse] at hb
    obtain ⟨d, hd, rfl⟩ := hb
    have := Nat.digits_lt_base (by norm_num) hd
    omega
  · intro _
    rw [List.head?_map, List.head?_reverse,
      List.getLast?_eq_getLast _ (Nat.digits_ne_nil_iff_ne_zero.mpr hn0)]
    have := Nat.getLast_digit_ne_zero 10 hn0
    simp only [Option.map_some', ne_eq, Option.some.injEq]
    omega
  · rw [hv]
    exact h

mutual
/-- `impl fmt::Display for Policy` from `src/policy/ast.rs` (lines 151–189),
arm by arm: key and hash rendering is external (`Pk: Display`,
`sha256::Hash: Display`), passed in as `kp`/`hp`. -/
def Policy.display (kp : Pk → List Nat) (hp : H → List Nat) : Policy Pk H → List Nat
  | .Unsatisfiable => str2b "UNSATISFIABLE"
  | .Trivial => str2b "TRIVIAL"
  | .Key pk => str2b "pk(" ++ kp pk ++ [41]
  | .After n => str2b "after(" ++ natBytes n ++ [41]
  | .Older n => str2b "older(" ++ natBytes n ++ [41]
  | .Sha256 h => str2b "sha256(" ++ hp h ++ [41]
  | .And subs => str2b "and(" ++ Policy.displayList kp hp subs ++ [41]
  | .Or subs => str2b "or(" ++ Policy.displayList kp hp subs ++ [41]
  | .Threshold k subs => str2b "thresh(" ++ natBytes k ++ Policy.displayTail kp hp subs ++ [41]
/-- The `write!(f, "{}", subs[0])` followed by `write!(f, ",{}", sub)` loop of
the `And`/`Or` display arms. -/
def Policy.displayList (kp : Pk → List Nat) (hp : H → List Nat) : List (Policy Pk H) → List Nat
  | [] => []
  | p :: ps => Policy.display kp hp p ++ Policy.displayTail kp hp ps
/-- The `write!(f, ",{}", sub)` loop of the `Threshold` display arm. -/
def Policy.displayTail (kp : Pk → List Nat) (hp : H → List Nat) : List (Policy Pk H) → List Nat
  | [] => []
  | p :: ps => 44 :: (Policy.display kp hp p ++ Policy.displayTail kp hp ps)
end

mutual
/-- The expression tree whose textual form `Policy.display` emits
(characterisation used to relate `Display` with the expression parser). -/
def Policy.toTree (kp : Pk → List Nat) (hp : H → List Nat) : Policy Pk H → Tree
  | .Unsatisfiable => .mk (str2b "UNSATISFIABLE") []
  | .Trivial => .mk (str2b "TRIVIAL") []
  | .Key pk => .mk (str2b "pk") [.mk (kp pk) []]
  | .After n => .mk (str2b "after") [.mk (natBytes n) []]
  | .Older n => .mk (str2b "older") [.mk (natBytes n) []]
  | .Sha256 h => .mk (str2b "sha256") [.mk (hp h) []]
  | .And subs => .mk (str2b "and") (Policy.toTreeList kp hp subs)
  | .Or subs => .mk (str2b "or") (Policy.toTreeList kp hp subs)
  | .Threshold k subs =>
      .mk (str2b "thresh") (.mk (natBytes k) [] :: Policy.toTreeList kp hp subs)
/-- `Policy.toTree` over a list of policies. -/
def Policy.toTreeList (kp : Pk → List Nat) (hp : H → List Nat) : List (Policy Pk H) → List Tree
  | [] => []
  | p :: ps => Policy.toTree kp hp p :: Policy.toTreeList kp hp ps
end

mutual
/-- The sha256 hash images occurring in a policy. -/
def Policy.hashes : Policy Pk H → List H
  | .Sha256 h => [h]
  | .And subs => Policy.hashesList subs
  | .Or subs => Policy.hashesList subs
  | .Threshold _ subs => Policy.hashesList subs
  | _ => []
/-- `Policy.hashes` over a list of policies. -/
def Policy.hashesList : List (Policy Pk H) → List H
  | [] => []
  | p :: ps => Policy.hashes p ++ Policy.hashesList ps
end

mutual
/-- Well-formed policies for the print/parse round trip: `And`/`Or` nodes
have exactly two sub-policies, `Threshold(k, subs)` satisfies
`k ≤ subs.length` with `subs.length + 1` representable in the `u32` the
parser casts arities to, and `After`/`Older` carry `u32` values. -/
def Policy.wf : Policy Pk H → Bool
  | .Unsatisfiable => true
  | .Trivial => true
  | .Key _ => true
  | .After n => decide (n < 2 ^ 32)
  | .Older n => decide (n < 2 ^ 32)
  | .Sha256 _ => true
  | .And subs => decide (subs.length = 2) && Policy.wfList subs
  | .Or subs => decide (subs.length = 2) && Policy.wfList subs
  | .Threshold k subs =>
      decide (k ≤ subs.length) && decide (subs.length + 2 ≤ 2 ^ 32) && Policy.wfList subs
/-- `Policy.wf` over a list of policies. -/
def Policy.wfList : List (Policy Pk H) → Bool
  | [] => true
  | p :: ps => Policy.wf p && Policy.wfList ps
end

/-- Model of `miniscript::expression::terminal` (external crate): apply the
leaf conversion when the node has no arguments. -/
def terminal {A : Type} (t : Tree) (f : List Nat → Except MsError A) : Except MsError A :=
  match t with
  | .mk name [] => f name
  | .mk _ (a :: _) => .error (MsError.Unexpected a.name)

mutual
/-- `impl expression::FromTree for Policy` from `src/policy/ast.rs`
(lines 219–275).  The source matches on `(top.name, top.args.len() as u32)`,
so arities are compared modulo `2 ^ 32`; the match arms are translated in
source order.  Key and hash parsing (`Pk::from_str`, `sha256::Hash::from_hex`)
are external and passed in as `kparse`/`hparse`, with their failures modelled
as `Unexpected` carrying the offending bytes. -/
def Policy.fromTree (kparse : List Nat → Option Pk) (hparse : List Nat → Option H) :
    Tree → Except MsError (Policy Pk H)
  | .mk name args =>
    if name = str2b "UNSATISFIABLE" ∧ args.length % 2 ^ 32 = 0 then .ok .Unsatisfiable
    else if name = str2b "TRIVIAL" ∧ args.length % 2 ^ 32 = 0 then .ok .Trivial
    else if name = str2b "pk" ∧ args.length % 2 ^ 32 = 1 then
      match args with
      | a :: _ =>
          terminal a (fun s =>
            match kparse s with
            | some k => .ok (Policy.Key k)
            | none => .error (MsError.Unexpected s))
      | [] => .error (MsError.Unexpected name)
    else if name = str2b "after" ∧ args.length % 2 ^ 32 = 1 then
      match args with
      | a :: _ =>
          terminal a (fun s =>
            match parseNum s with
            | .ok n => .ok (Policy.After n)
            | .error e => .error e)
      | [] => .error (MsError.Unexpected name)
    else if name = str2b "older" ∧ args.length % 2 ^ 32 = 1 then
      match args with
      | a :: _ =>
          terminal a (fun s =>
            match parseNum s with
            | .ok n => .ok (Policy.Older n)
            | .error e => .error e)
      | [] => .error (MsError.Unexpected name)
    else if name = str2b "sha256" ∧ args.length % 2 ^ 32 = 1 then
      match args with
      | a :: _ =>
          terminal a (fun s =>
            match hparse s with
            | some h => .ok (Policy.Sha256 h)
            | none => .error (MsError.Unexpected s))
      | [] => .error (MsError.Unexpected name)
    else if name = str2b "and" then
      if args.length = 2 then
        match Policy.fromTreeList kparse hparse args with
        | .error e => .error e
        | .ok subs => .ok (Policy.And subs)
      else .error (MsError.PolicyError MsPolicyError.NonBinaryArgAnd)
    else if name = str2b "or" then
      if args.length = 2 then
        match Policy.fromTreeList kparse hparse args with
        | .error e => .error e
        | .ok subs => .ok (Policy.Or subs)
      else .error (MsError.PolicyError MsPolicyError.NonBinaryArgOr)
    else if name = str2b "thresh" then
      if args.length % 2 ^ 32 = 0 then .error (MsError.Unexpected (str2b "thresh without args"))
      else
        match args with
        | [] => .error (MsError.Unexpected (str2b "thresh without args"))
        | a0 :: rest =>
          match a0.args with
          | x :: _ => .error (MsError.Unexpected x.name)
          | [] =>
            match parseNum a0.name with
            | .error e => .error e
            | .ok thresh =>
              if args.length % 2 ^ 32 ≤ thresh then .error (MsError.Unexpected a0.name)
              else
                match Policy.fromTreeList kparse hparse rest with
                | .error e => .error e
                | .ok subs => .ok (Policy.Threshold thresh subs)
    else .error (MsError.Unexpected name)
/-- The sub-policy collection loops of `from_tree`: left to right, stopping
at the first error. -/
def Policy.fromTreeList (kparse : List Nat → Option Pk) (hparse : List Nat → Option H) :
    List Tree → Except MsError (List (Policy Pk H))
  | [] => .ok []
  | t :: ts =>
      match Policy.fromTree kparse hparse t with
      | .error e => .error e
      | .ok p =>
          match Policy.fromTreeList kparse hparse ts with
          | .error e => .error e
          | .ok ps => .ok (p :: ps)
end

/-- The grammar stage of `Policy::from_str`: the expression-tree parse
followed by `FromTree` conversion (`src/policy/ast.rs` lines 205–206). -/
def Policy.treePhase (kparse : List Nat → Option Pk) (hparse : List Nat → Option H)
    (s : List Nat) : Except MsError (Policy Pk H) :=
  match Tree.fromStr s with
  | .error e => .error e
  | .ok t => Policy.fromTree kparse hparse t

/-- `impl str::FromStr for Policy` from `src/policy/ast.rs` (lines 198–207):
scan the bytes left to right and reject the first byte below 20 or above 127
with `Unprintable`, then run the expression-tree parse and conversion. -/
def Policy.fromStr (kparse : List Nat → Option Pk) (hparse : List Nat → Option H)
    (s : List Nat) : Except MsError (Policy Pk H) :=
  match s.find? (fun b => decide (b < 20) || decide (127 < b)) with
  | some b => .error (MsError.Unprintable b)
  | none => Policy.treePhase kparse hparse s

theorem natBytes_digits : ∀ n : Nat, ∀ b ∈ natBytes n, 48 ≤ b ∧ b ≤ 57 := by
  intro n b hb
  rw [natBytes] at hb
  split at hb
  · simp at hb
    omega
  · simp only [List.mem_map, List.mem_reverse] at hb
    obtain ⟨d, hd, rfl⟩ := hb
    have := Nat.digits_lt_base (by norm_num) hd
    omega

theorem natBytes_notDelim : ∀ n : Nat, ∀ b ∈ natBytes n, isDelim b = false := by
  intro n b hb
  have := natBytes_digits n b hb
  simp only [isDelim, Bool.or_eq_false_iff, beq_eq_false_iff_ne, ne_eq]
  omega

theorem Policy.wfList_mem {subs : List (Policy Pk H)} (h : Policy.wfList subs = true) :
    ∀ p ∈ subs, Policy.wf p = true := by
  induction subs with
  | nil => intro p hp; cases hp
  | cons q qs ih =>
    rw [Policy.wfList, Bool.and_eq_true] at h
    intro p hp
    rcases List.mem_cons.mp hp with rfl | hp'
    · exact h.1
    · exact ih h.2 p hp'

theorem Policy.mem_hashesList {h : H} {p : Policy Pk H} {subs : List (Policy Pk H)}
    (hp : p ∈ subs) (hh : h ∈ p.hashes) : h ∈ Policy.hashesList subs := by
  induction subs with
  | nil => cases hp
  | cons q qs ih =>
    rw [Policy.hashesList]
    rcases List.mem_cons.mp hp with rfl | hp'
    · exact List.mem_append.mpr (Or.inl hh)
    · exact List.mem_append.mpr (Or.inr (ih hp'))

theorem Policy.toTreeList_length (kp : Pk → List Nat) (hp : H → List Nat) :
    ∀ subs : List (Policy Pk H), (Policy.toTreeList kp hp subs).length = subs.length := by
  intro subs
  induction subs with
  | nil =>
    rw [Policy.toTreeList]
    rfl
  | cons p ps ih => rw [Policy.toTreeList, List.length_cons, List.length_cons, ih]

theorem Policy.printArgs_toTree (kp : Pk → List Nat) (hp : H → List Nat) :
    ∀ (ps : List (Policy Pk H)) (p : Policy Pk H),
      (∀ q ∈ p :: ps, Policy.display kp hp q = Tree.print (Policy.toTree kp hp q)) →
      Tree.printArgs (Policy.toTree kp hp p) (Policy.toTreeList kp hp ps) =
        Policy.display kp hp p ++ Policy.displayTail kp hp ps := by
  intro ps
  induction ps with
  | nil =>
    intro p h
    rw [Policy.toTreeList, Tree.printArgs, Policy.displayTail, List.append_nil, h p (by simp)]
  | cons q qs ih =>
    intro p h
    rw [Policy.toTreeList, Tree.printArgs, Policy.displayTail]
    rw [h p (by simp), ih q (fun r hr => h r (List.mem_cons.mpr (Or.inr hr)))]

theorem Policy.display_eq_print (kp : Pk → List Nat) (hp : H → List Nat) :
    ∀ p : Policy Pk H, Policy.wf p = true →
      Policy.display kp hp p = Tree.print (Policy.toTree kp hp p) := by
  refine Policy.inductionOn ?_ ?_ ?_ ?_ ?_ ?_ ?_ ?_ ?_
  · intro _
    simp only [Policy.display, Policy.toTree, Tree.print]
  · intro _
    simp only [Policy.display, Policy.toTree, Tree.print]
  · intro pk _
    simp only [Policy.display, Policy.toTree, Tree.print, Tree.printArgs]
    rw [show str2b "pk(" = str2b "pk" ++ [40] from rfl]
    simp [List.append_assoc]
  · intro n _
    simp only [Policy.display, Policy.toTree, Tree.print, Tree.printArgs]
    rw [show str2b "after(" = str2b "after" ++ [40] from rfl]
    simp [List.append_assoc]
  · intro n _
    simp only [Policy.display, Policy.toTree, Tree.print, Tree.printArgs]
    rw [show str2b "older(" = str2b "older" ++ [40] from rfl]
    simp [List.append_assoc]
  · intro h _
    simp only [Policy.display, Policy.toTree, Tree.print, Tree.printArgs]
    rw [show str2b "sha256(" = str2b "sha256" ++ [40] from rfl]
    simp [List.append_assoc]
  · intro subs ih hw
    rw [Policy.wf, Bool.and_eq_true] at hw
    have hlen := of_decide_eq_true hw.1
    have hdm : ∀ q ∈ subs, Policy.display kp hp q = Tree.print (Policy.toTree kp hp q) :=
      fun q hq => ih q hq (Policy.wfList_mem hw.2 q hq)
    cases subs with
    | nil => simp at hlen
    | cons p ps =>
      simp only [Policy.display, Policy.toTree, Policy.toTreeList, Tree.print,
        Policy.displayList]
      rw [Policy.printArgs_toTree kp hp ps p hdm]
      rw [show str2b "and(" = str2b "and" ++ [40] from rfl]
      simp [List.append_assoc]
  · intro subs ih hw
    rw [Policy.wf, Bool.and_eq_true] at hw
    have hlen := of_decide_eq_true hw.1
    have hdm : ∀ q ∈ subs, Policy.display kp hp q = Tree.print (Policy.toTree kp hp q) :=
      fun q hq => ih q hq (Policy.wfList_mem hw.2 q hq)
    cases subs with
    | nil => simp at hlen
    | cons p ps =>
      simp only [Policy.display, Policy.toTree, Policy.toTreeList, Tree.print,
        Policy.displayList]
      rw [Policy.printArgs_toTree kp hp ps p hdm]
      rw [show str2b "or(" = str2b "or" ++ [40] from rfl]
      simp [List.append_assoc]
  · intro k subs ih hw
    rw [Policy.wf, Bool.and_eq_true, Bool.and_eq_true] at hw
    have hdm : ∀ q ∈ subs, Policy.display kp hp q = Tree.print (Policy.toTree kp hp q) :=
      fun q hq => ih q hq (Policy.wfList_mem hw.2 q hq)
    cases subs with
    | nil =>
      simp only [Policy.display, Policy.toTree, Policy.toTreeList, Tree.print,
        Tree.printArgs, Policy.displayTail]
      rw [show str2b "thresh(" = str2b "thresh" ++ [40] from rfl]
      simp [List.append_assoc]
    | cons p ps =>
      simp only [Policy.display, Policy.toTree, Policy.toTreeList, Tree.print,
        Tree.printArgs, Policy.displayTail]
      rw [Policy.printArgs_toTree kp hp ps p hdm]
      rw [show str2b "thresh(" = str2b "thresh" ++ [40] from rfl]
      simp [List.append_assoc]

theorem Policy.namesOkList_toTreeList (kp : Pk → List Nat) (hp : H → List Nat)
    {subs : List (Policy Pk H)}
    (h : ∀ p ∈ subs, Tree.namesOk (Policy.toTree kp hp p) = true) :
    Tree.namesOkList (Policy.toTreeList kp hp subs) = true := by
  induction subs with
  | nil => rw [Policy.toTreeList, Tree.namesOkList]
  | cons p ps ih =>
    rw [Policy.toTreeList, Tree.namesOkList, h p (by simp),
      ih (fun q hq => h q (by simp [hq]))]
    rfl

theorem Policy.namesOk_toTree (kp : Pk → List Nat) (hp : H → List Nat) :
    ∀ p : Policy Pk H,
      (∀ k ∈ p.keys, ∀ b ∈ kp k, isDelim b = false) →
      (∀ h ∈ p.hashes, ∀ b ∈ hp h, isDelim b = false) →
      Tree.namesOk (Policy.toTree kp hp p) = true := by
  refine Policy.inductionOn ?_ ?_ ?_ ?_ ?_ ?_ ?_ ?_ ?_
  · intro _ _
    rw [Policy.toTree, Tree.namesOk, Tree.namesOkList]
    decide
  · intro _ _
    rw [Policy.toTree, Tree.namesOk, Tree.namesOkList]
    decide
  · intro pk hk _
    have hall : (kp pk).all (fun b => !isDelim b) = true :=
      List.all_eq_true.mpr (fun b hb => by
        simp [hk pk (by rw [Policy.keys]; exact List.mem_singleton_self pk) b hb])
    rw [Policy.toTree]
    simp only [Tree.namesOk, Tree.namesOkList, hall]
    decide
  · intro n _ _
    have hall : (natBytes n).all (fun b => !isDelim b) = true :=
      List.all_eq_true.mpr (fun b hb => by simp [natBytes_notDelim n b hb])
    rw [Policy.toTree]
    simp only [Tree.namesOk, Tree.namesOkList, hall]
    decide
  · intro n _ _
    have hall : (natBytes n).all (fun b => !isDelim b) = true :=
      List.all_eq_true.mpr (fun b hb => by simp [natBytes_notDelim n b hb])
    rw [Policy.toTree]
    simp only [Tree.namesOk, Tree.namesOkList, hall]
    decide
  · intro h _ hh
    have hall : (hp h).all (fun b => !isDelim b) = true :=
      List.all_eq_true.mpr (fun b hb => by
        simp [hh h (by rw [Policy.hashes]; exact List.mem_singleton_self h) b hb])
    rw [Policy.toTree]
    simp only [Tree.namesOk, Tree.namesOkList, hall]
    decide
  · intro subs ih hk hh
    have hlist := Policy.namesOkList_toTreeList kp hp (fun p hp' => ih p hp'
      (fun k hk' b hb => hk k (by rw [Policy.keys]; exact Policy.mem_keysList hp' hk') b hb)
      (fun h hh' b hb => hh h (by rw [Policy.hashes]; exact Policy.mem_hashesList hp' hh') b hb))
    rw [Policy.toTree]
    simp only [Tree.namesOk, hlist]
    decide
  · intro subs ih hk hh
    have hlist := Policy.namesOkList_toTreeList kp hp (fun p hp' => ih p hp'
      (fun k hk' b hb => hk k (by rw [Policy.keys]; exact Policy.mem_keysList hp' hk') b hb)
      (fun h hh' b hb => hh h (by rw [Policy.hashes]; exact Policy.mem_hashesList hp' hh') b hb))
    rw [Policy.toTree]
    simp only [Tree.namesOk, hlist]
    decide
  · intro k subs ih hk hh
    have hall : (natBytes k).all (fun b => !isDelim b) = true :=
      List.all_eq_true.mpr (fun b hb => by simp [natBytes_notDelim k b hb])
    have hlist := Policy.namesOkList_toTreeList kp hp (fun p hp' => ih p hp'
      (fun q hq' b hb => hk q (by rw [Policy.keys]; exact Policy.mem_keysList hp' hq') b hb)
      (fun h hh' b hb => hh h (by rw [Policy.hashes]; exact Policy.mem_hashesList hp' hh') b hb))
    rw [Policy.toTree]
    simp only [Tree.namesOk, Tree.namesOkList, hall, hlist]
    decide

theorem Policy.displayTail_printable (kp : Pk → List Nat) (hp : H → List Nat) :
    ∀ subs : List (Policy Pk H),
      (∀ p ∈ subs, ∀ b ∈ Policy.display kp hp p, 20 ≤ b ∧ b ≤ 127) →
      ∀ b ∈ Policy.displayTail kp hp subs, 20 ≤ b ∧ b ≤ 127 := by
  intro subs
  induction subs with
  | nil =>
    intro _ b hb
    rw [Policy.displayTail] at hb
    cases hb
  | cons p ps ih =>
    intro h b hb
    rw [Policy.displayTail] at hb
    rcases List.mem_cons.mp hb with rfl | hb'
    · omega
    · rcases List.mem_append.mp hb' with h1 | h2
      · exact h p (by simp) b h1
      · exact ih (fun q hq => h q (by simp [hq])) b h2

theorem Policy.displayList_printable (kp : Pk → List Nat) (hp : H → List Nat) :
    ∀ subs : List (Policy Pk H),
      (∀ p ∈ subs, ∀ b ∈ Policy.display kp hp p, 20 ≤ b ∧ b ≤ 127) →
      ∀ b ∈ Policy.displayList kp hp subs, 20 ≤ b ∧ b ≤ 127 := by
  intro subs h b hb
  cases subs with
  | nil =>
    rw [Policy.displayList] at hb
    cases hb
  | cons p ps =>
    rw [Policy.displayList] at hb
    rcases List.mem_append.mp hb with h1 | h2
    · exact h p (by simp) b h1
    · exact Policy.displayTail_printable kp hp ps (fun q hq => h q (by simp [hq])) b h2

theorem Policy.display_printable (kp : Pk → List Nat) (hp : H → List Nat) :
    ∀ p : Policy Pk H,
      (∀ k ∈ p.keys, ∀ b ∈ kp k, 20 ≤ b ∧ b ≤ 127) →
      (∀ h ∈ p.hashes, ∀ b ∈ hp h, 20 ≤ b ∧ b ≤ 127) →
      ∀ b ∈ Policy.display kp hp p, 20 ≤ b ∧ b ≤ 127 := by
  refine Policy.inductionOn ?_ ?_ ?_ ?_ ?_ ?_ ?_ ?_ ?_
  · intro _ _ b hb
    rw [Policy.display] at hb
    exact (by decide : ∀ c ∈ str2b "UNSATISFIABLE", 20 ≤ c ∧ c ≤ 127) b hb
  · intro _ _ b hb
    rw [Policy.display] at hb
    exact (by decide : ∀ c ∈ str2b "TRIVIAL", 20 ≤ c ∧ c ≤ 127) b hb
  · intro pk hk _ b hb
    rw [Policy.display] at hb
    rcases List.mem_append.mp hb with h12 | h3
    · rcases List.mem_append.mp h12 with h1 | h2
      · exact (by decide : ∀ c ∈ str2b "pk(", 20 ≤ c ∧ c ≤ 127) b h1
      · exact hk pk (by rw [Policy.keys]; exact List.mem_singleton_self pk) b h2
    · simp at h3
      omega
  · intro n _ _ b hb
    rw [Policy.display] at hb
    rcases List.mem_append.mp hb with h12 | h3
    · rcases List.mem_append.mp h12 with h1 | h2
      · exact (by decide : ∀ c ∈ str2b "after(", 20 ≤ c ∧ c ≤ 127) b h1
      · have := natBytes_digits n b h2
        omega
    · simp at h3
      omega
  · intro n _ _ b hb
    rw [Policy.display] at hb
    rcases List.mem_append.mp hb with h12 | h3
    · rcases List.mem_append.mp h12 with h1 | h2
      · exact (by decide : ∀ c ∈ str2b "older(", 20 ≤ c ∧ c ≤ 127) b h1
      · have := natBytes_digits n b h2
        omega
    · simp at h3
      omega
  · intro h _ hh b hb
    rw [Policy.display] at hb
    rcases List.mem_append.mp hb with h12 | h3
    · rcases List.mem_append.mp h12 with h1 | h2
      · exact (by decide : ∀ c ∈ str2b "sha256(", 20 ≤ c ∧ c ≤ 127) b h1
      · exact hh h (by rw [Policy.hashes]; exact List.mem_singleton_self h) b h2
    · simp at h3
      omega
  · intro subs ih hk hh b hb
    rw [Policy.display] at hb
    rcases List.mem_append.mp hb with h12 | h3
    · rcases List.mem_append.mp h12 with h1 | h2
      · exact (by decide : ∀ c ∈ str2b "and(", 20 ≤ c ∧ c ≤ 127) b h1
      · refine Policy.displayList_printable kp hp subs (fun p hp' => ih p hp'
          (fun q hq' => hk q (by rw [Policy.keys]; exact Policy.mem_keysList hp' hq'))
          (fun x hx' => hh x (by rw [Policy.hashes]; exact Policy.mem_hashesList hp' hx'))) b h2
    · simp at h3
      omega
  · intro subs ih hk hh b hb
    rw [Policy.display] at hb
    rcases List.mem_append.mp hb with h12 | h3
    · rcases List.mem_append.mp h12 with h1 | h2
      · exact (by decide : ∀ c ∈ str2b "or(", 20 ≤ c ∧ c ≤ 127) b h1
      · refine Policy.displayList_printable kp hp subs (fun p hp' => ih p hp'
          (fun q hq' => hk q (by rw [Policy.keys]; exact Policy.mem_keysList hp' hq'))
          (fun x hx' => hh x (by rw [Policy.hashes]; exact Policy.mem_hashesList hp' hx'))) b h2
    · simp at h3
      omega
  · intro k subs ih hk hh b hb
    rw [Policy.display] at hb
    rcases List.mem_append.mp hb with h123 | h4
    · rcases List.mem_append.mp h123 with h12 | h3
      · rcases List.mem_append.mp h12 with h1 | h2
        · exact (by decide : ∀ c ∈ str2b "thresh(", 20 ≤ c ∧ c ≤ 127) b h1
        · have := natBytes_digits k b h2
          omega
      · refine Policy.displayTail_printable kp hp subs (fun p hp' => ih p hp'
          (fun q hq' => hk q (by rw [Policy.keys]; exact Policy.mem_keysList hp' hq'))
          (fun x hx' => hh x (by rw [Policy.hashes]; exact Policy.mem_hashesList hp' hx'))) b h3
    · simp at h4
      omega

theorem Policy.fromTreeList_toTreeList {kparse : List Nat → Option Pk}
    {hparse : List Nat → Option H} {kp : Pk → List Nat} {hp : H → List Nat}
    {subs : List (Policy Pk H)}
    (h : ∀ p ∈ subs, Policy.fromTree kparse hparse (Policy.toTree kp hp p) = .ok p) :
    Policy.fromTreeList kparse hparse (Policy.toTreeList kp hp subs) = .ok subs := by
  induction subs with
  | nil => rw [Policy.toTreeList, Policy.fromTreeList]
  | cons p ps ih =>
    rw [Policy.toTreeList, Policy.fromTreeList, h p (by simp),
      ih (fun q hq => h q (by simp [hq]))]

theorem Policy.fromTree_toTree (kp : Pk → List Nat) (kparse : List Nat → Option Pk)
    (hp : H → List Nat) (hparse : List Nat → Option H) :
    ∀ p : Policy Pk H, Policy.wf p = true →
      (∀ k ∈ p.keys, kparse (kp k) = some k) →
      (∀ h ∈ p.hashes, hparse (hp h) = some h) →
      Policy.fromTree kparse hparse (Policy.toTree kp hp p) = .ok p := by
  refine Policy.inductionOn ?_ ?_ ?_ ?_ ?_ ?_ ?_ ?_ ?_
  · intro _ _ _
    rw [Policy.toTree]
    simp only [Policy.fromTree.eq_def]
    rw [if_pos (by decide)]
  · intro _ _ _
    rw [Policy.toTree]
    simp only [Policy.fromTree.eq_def]
    rw [if_neg (by decide), if_pos (by decide)]
  · intro pk _ hk _
    rw [Policy.toTree]
    simp only [Policy.fromTree.eq_def]
    rw [if_neg (fun hc => absurd hc.1 (by decide)),
      if_neg (fun hc => absurd hc.1 (by decide)),
      if_pos (by norm_num)]
    simp only [terminal]
    rw [hk pk (by rw [Policy.keys]; exact List.mem_singleton_self pk)]
  · intro n hw _ _
    rw [Policy.wf] at hw
    rw [Policy.toTree]
    simp only [Policy.fromTree.eq_def]
    rw [if_neg (fun hc => absurd hc.1 (by decide)),
      if_neg (fun hc => absurd hc.1 (by decide)),
      if_neg (fun hc => absurd hc.1 (by decide)),
      if_pos (by norm_num)]
    simp only [terminal]
    rw [parseNum_natBytes n (of_decide_eq_true hw)]
  · intro n hw _ _
    rw [Policy.wf] at hw
    rw [Policy.toTree]
    simp only [Policy.fromTree.eq_def]
    rw [if_neg (fun hc => absurd hc.1 (by decide)),
      if_neg (fun hc => absurd hc.1 (by decide)),
      if_neg (fun hc => absurd hc.1 (by decide)),
      if_neg (fun hc => absurd hc.1 (by decide)),
      if_pos (by norm_num)]
    simp only [terminal]
    rw [parseNum_natBytes n (of_decide_eq_true hw)]
  · intro h _ _ hh
    rw [Policy.toTree]
    simp only [Policy.fromTree.eq_def]
    rw [if_neg (fun hc => absurd hc.1 (by decide)),
      if_neg (fun hc => absurd hc.1 (by decide)),
      if_neg (fun hc => absurd hc.1 (by decide)),
      if_neg (fun hc => absurd hc.1 (by decide)),
      if_neg (fun hc => absurd hc.1 (by decide)),
      if_pos (by norm_num)]
    simp only [terminal]
    rw [hh h (by rw [Policy.hashes]; exact List.mem_singleton_self h)]
  · intro subs ih hw hk hh
    rw [Policy.wf, Bool.and_eq_true] at hw
    have hlen := of_decide_eq_true hw.1
    have hmem : ∀ p ∈ subs, Policy.fromTree kparse hparse (Policy.toTree kp hp p) = .ok p :=
      fun p hp' => ih p hp' (Policy.wfList_mem hw.2 p hp')
        (fun k hk' => hk k (by rw [Policy.keys]; exact Policy.mem_keysList hp' hk'))
        (fun x hx' => hh x (by rw [Policy.hashes]; exact Policy.mem_hashesList hp' hx'))
    have hcond : (Policy.toTreeList kp hp subs).length = 2 := by
      rw [Policy.toTreeList_length]; exact hlen
    rw [Policy.toTree]
    simp only [Policy.fromTree.eq_def]
    rw [if_neg (fun hc => absurd hc.1 (by decide)),
      if_neg (fun hc => absurd hc.1 (by decide)),
      if_neg (fun hc => absurd hc.1 (by decide)),
      if_neg (fun hc => absurd hc.1 (by decide)),
      if_neg (fun hc => absurd hc.1 (by decide)),
      if_neg (fun hc => absurd hc.1 (by decide))]
    rw [if_pos trivial, if_pos hcond]
    simp only [Policy.fromTreeList_toTreeList hmem]
  · intro subs ih hw hk hh
    rw [Policy.wf, Bool.and_eq_true] at hw
    have hlen := of_decide_eq_true hw.1
    have hmem : ∀ p ∈ subs, Policy.fromTree kparse hparse (Policy.toTree kp hp p) = .ok p :=
      fun p hp' => ih p hp' (Policy.wfList_mem hw.2 p hp')
        (fun k hk' => hk k (by rw [Policy.keys]; exact Policy.mem_keysList hp' hk'))
        (fun x hx' => hh x (by rw [Policy.hashes]; exact Policy.mem_hashesList hp' hx'))
    have hcond : (Policy.toTreeList kp hp subs).length = 2 := by
      rw [Policy.toTreeList_length]; exact hlen
    rw [Policy.toTree]
    simp only [Policy.fromTree.eq_def]
    rw [if_neg (fun hc => absurd hc.1 (by decide)),
      if_neg (fun hc => absurd hc.1 (by decide)),
      if_neg (fun hc => absurd hc.1 (by decide)),
      if_neg (fun hc => absurd hc.1 (by decide)),
      if_neg (fun hc => absurd hc.1 (by decide)),
      if_neg (fun hc => absurd hc.1 (by decide)),
      if_neg (by decide)]
    rw [if_pos trivial, if_pos hcond]
    simp only [Policy.fromTreeList_toTreeList hmem]
  · intro k subs ih hw hk hh
    rw [Policy.wf, Bool.and_eq_true, Bool.and_eq_true] at hw
    obtain ⟨⟨hd1, hd2⟩, hwl⟩ := hw
    have h1 := of_decide_eq_true hd1
    have h2 := of_decide_eq_true hd2
    have hmem : ∀ p ∈ subs, Policy.fromTree kparse hparse (Policy.toTree kp hp p) = .ok p :=
      fun p hp' => ih p hp' (Policy.wfList_mem hwl p hp')
        (fun q hq' => hk q (by rw [Policy.keys]; exact Policy.mem_keysList hp' hq'))
        (fun x hx' => hh x (by rw [Policy.hashes]; exact Policy.mem_hashesList hp' hx'))
    rw [Policy.toTree]
    simp only [Policy.fromTree.eq_def]
    rw [if_neg (fun hc => absurd hc.1 (by decide)),
      if_neg (fun hc => absurd hc.1 (by decide)),
      if_neg (fun hc => absurd hc.1 (by decide)),
      if_neg (fun hc => absurd hc.1 (by decide)),
      if_neg (fun hc => absurd hc.1 (by decide)),
      if_neg (fun hc => absurd hc.1 (by decide)),
      if_neg (by decide),
      if_neg (by decide)]
    rw [if_pos trivial]
    rw [show (Tree.mk (natBytes k) [] :: Policy.toTreeList kp hp subs).length =
        subs.length + 1 from by rw [List.length_cons, Policy.toTreeList_length]]
    rw [Nat.mod_eq_of_lt (by omega : subs.length + 1 < 2 ^ 32)]
    rw [if_neg (by omega : ¬subs.length + 1 = 0)]
    simp only [Tree.args, Tree.name]
    simp only [parseNum_natBytes k (by omega : k < 2 ^ 32)]
    rw [if_neg (by omega : ¬subs.length + 1 ≤ k)]
    simp only [Policy.fromTreeList_toTreeList hmem]

/-- C9 (amended): parsing round-trips printing for well-formed policies.  For
every policy whose `And`/`Or` nodes have exactly two sub-policies, whose
`Threshold(k, subs)` nodes satisfy `k ≤ subs.length` with `subs.length + 1`
below `2^32` (the `u32` the parser casts arities into), whose `After`/`Older`
payloads are `u32` values, and whose keys and hash images print as printable
ASCII free of the delimiter bytes `'('`/`')'`/`','` and parse back to an
equal value, `Policy::from_str` applied to the `Display` output returns `Ok`
of a policy equal to the original. -/
theorem spec_C9 :
    ∀ (Pk H : Type) (kp : Pk → List Nat) (kparse : List Nat → Option Pk)
      (hp : H → List Nat) (hparse : List Nat → Option H) (p : Policy Pk H),
      Policy.wf p = true →
      (∀ k ∈ p.keys, (∀ b ∈ kp k, 20 ≤ b ∧ b ≤ 127 ∧ isDelim b = false) ∧
        kparse (kp k) = some k) →
      (∀ h ∈ p.hashes, (∀ b ∈ hp h, 20 ≤ b ∧ b ≤ 127 ∧ isDelim b = false) ∧
        hparse (hp h) = some h) →
      Policy.fromStr kparse hparse (Policy.display kp hp p) = Except.ok p := by
  intro Pk H kp kparse hp hparse p hwf hkey hhash
  have hpr : ∀ b ∈ Policy.display kp hp p, 20 ≤ b ∧ b ≤ 127 :=
    Policy.display_printable kp hp p
      (fun k hk b hb => ⟨((hkey k hk).1 b hb).1, ((hkey k hk).1 b hb).2.1⟩)
      (fun h hh b hb => ⟨((hhash h hh).1 b hb).1, ((hhash h hh).1 b hb).2.1⟩)
  have hfind : (Policy.display kp hp p).find?
      (fun b => decide (b < 20) || decide (127 < b)) = none := by
    rw [List.find?_eq_none]
    intro x hx
    have := hpr x hx
    simp only [Bool.or_eq_true, decide_eq_true_eq, not_or]
    omega
  rw [Policy.fromStr]
  simp only [hfind]
  rw [Policy.treePhase]
  rw [Policy.display_eq_print kp hp p hwf]
  have hnames : Tree.namesOk (Policy.toTree kp hp p) = true :=
    Policy.namesOk_toTree kp hp p
      (fun k hk b hb => ((hkey k hk).1 b hb).2.2)
      (fun h hh b hb => ((hhash h hh).1 b hb).2.2)
  simp only [Tree.fromStr_print (Policy.toTree kp hp p) hnames]
  exact Policy.fromTree_toTree kp kparse hp hparse p hwf
    (fun k hk => (hkey k hk).2) (fun h hh => (hhash h hh).2)

/-- Witness for C9 at a concrete policy and concrete key/hash codecs. -/
theorem spec_C9_witness :
    Policy.fromStr (fun s => if s = [97] then some () else none)
        (fun s => if s = [98] then some () else none)
        (Policy.display (fun _ => [97]) (fun _ => [98])
          (Policy.And [Policy.Key (), Policy.Trivial] : Policy Unit Unit)) =
      Except.ok (Policy.And [Policy.Key (), Policy.Trivial]) :=
  spec_C9 Unit Unit (fun _ => [97]) (fun s => if s = [97] then some () else none)
    (fun _ => [98]) (fun s => if s = [98] then some () else none)
    (Policy.And [Policy.Key (), Policy.Trivial])
    (by decide)
    (by decide)
    (by decide)

/-- Counterexample to C9 as frozen: a key type whose single key prints as the
printable-ASCII string `a,b` (which parses back to the key via `FromStr`)
still breaks the round trip, because the embedded comma splits the printed
`pk(a,b)` into a two-argument expression node which `FromTree` rejects. -/
theorem spec_C9_counterexample :
    ([97, 44, 98] : List Nat).all (fun b => decide (20 ≤ b ∧ b ≤ 127)) = true ∧
    (fun s => if s = [97, 44, 98] then some () else none) [97, 44, 98] = some () ∧
    Policy.fromStr (fun s => if s = [97, 44, 98] then some () else none)
        (fun _ => (none : Option Unit))
        (Policy.display (fun _ => [97, 44, 98]) (fun _ => [])
          (Policy.Key () : Policy Unit Unit)) ≠
      Except.ok (Policy.Key ()) := by
  refine ⟨rfl, rfl, ?_⟩
  intro he
  have h : Policy.fromStr (fun s => if s = [97, 44, 98] then some () else none)
      (fun _ => (none : Option Unit))
      (Policy.display (fun _ => [97, 44, 98]) (fun _ => [])
        (Policy.Key () : Policy Unit Unit)) =
      Except.error (MsError.Unexpected [112, 107]) := rfl
  exact Except.noConfusion (h.symm.trans he)

/-- C10: `Policy::from_str` rejects unprintable input before any grammar
processing: if the input contains a byte below 20 or above 127, the first
such byte is reported via an `Unprintable` error and no policy is built;
inputs whose bytes all lie in `[20, 127]` are passed on to the
expression-tree parsing stage unchanged. -/
theorem spec_C10 :
    ∀ (Pk H : Type) (kparse : List Nat → Option Pk) (hparse : List Nat → Option H)
      (s : List Nat),
      (∀ (l : List Nat) (b : Nat) (r : List Nat), s = l ++ b :: r →
        (∀ x ∈ l, 20 ≤ x ∧ x ≤ 127) → (b < 20 ∨ 127 < b) →
        Policy.fromStr kparse hparse s = Except.error (MsError.Unprintable b)) ∧
      ((∀ b ∈ s, 20 ≤ b ∧ b ≤ 127) →
        Policy.fromStr kparse hparse s = Policy.treePhase kparse hparse s) := by
  intro Pk H kparse hparse s
  constructor
  · intro l b r hs hl hb
    subst hs
    have hfind : (l ++ b :: r).find?
        (fun x => decide (x < 20) || decide (127 < x)) = some b := by
      induction l with
      | nil =>
        rw [List.nil_append]
        have hpb : (decide (b < 20) || decide (127 < b)) = true := by
          simp only [Bool.or_eq_true, decide_eq_true_eq]
          omega
        simp only [List.find?_cons, hpb]
      | cons x xs ih =>
        have hx := hl x (by simp)
        have hpx : (decide (x < 20) || decide (127 < x)) = false := by
          simp only [Bool.or_eq_false_iff, decide_eq_false_iff_not]
          omega
        rw [List.cons_append]
        simp only [List.find?_cons, hpx]
        exact ih (fun y hy => hl y (by simp [hy]))
    rw [Policy.fromStr]
    simp only [hfind]
  · intro hall
    have hfind : s.find? (fun x => decide (x < 20) || decide (127 < x)) = none := by
      rw [List.find?_eq_none]
      intro x hx
      have := hall x hx
      simp only [Bool.or_eq_true, decide_eq_true_eq, not_or]
      omega
    rw [Policy.fromStr]
    simp only [hfind]

/-- Witness for C10 at a concrete unprintable input. -/
theorem spec_C10_witness :
    Policy.fromStr (fun _ => (none : Option Unit)) (fun _ => (none : Option Unit)) [97, 5] =
      Except.error (MsError.Unprintable 5) :=
  (spec_C10 Unit Unit (fun _ => none) (fun _ => none) [97, 5]).1 [97] 5 []
    rfl (by decide) (by omega)

/-! ### Bit Machine execution (spec §4.4)

The Bit Machine module (`src/bit_machine`) is not among the provided
sources, so execution is modelled from the spec: a big-step evaluation
relation over the combinator calculus of §3/§4.4, with bit-level witness
consumption (`bitsize` of the target type, discriminant bit first, padding
before the payload of a sum) and an abstract jet table (§4.5: a mapping to
native functions, resolved before execution).  `disconnect(A,B)` runs `A`
against a sub-expression representation of `B` itself plus the auxiliary
input (§4.4); that representation is the commitment of §4.3, a deterministic
function of the sub-term, so it enters the model as an abstract parameter
`rep`, exactly as the jet table does. -/

/-- Simplicity types: `unit`, `sum`, `product` (spec §3). -/
inductive Ty where
  | unit
  | sum (a b : Ty)
  | prod (a b : Ty)

/-- Bit width of a type (spec §4.4): `bitsize(unit) = 0`,
`bitsize(sum(A,B)) = 1 + max(bitsize A, bitsize B)`,
`bitsize(product(A,B)) = bitsize A + bitsize B`. -/
def Ty.bitsize : Ty → Nat
  | .unit => 0
  | .sum a b => 1 + max a.bitsize b.bitsize
  | .prod a b => a.bitsize + b.bitsize

/-- Values of the calculus. -/
inductive Value where
  | unit
  | inl (v : Value)
  | inr (v : Value)
  | pair (a b : Value)

/-- Modelled from the spec: the combinator set of §3 executed by the Bit
Machine (§4.4), `disconnect` included.  `witness` carries its target type
(its bit width determines how many witness bits it consumes), `hidden`
stands for a pruned branch and `jet` carries its table index. -/
inductive Term where
  | unit
  | iden
  | injl (t : Term)
  | injr (t : Term)
  | take (t : Term)
  | drop (t : Term)
  | comp (s t : Term)
  | pair (s t : Term)
  | case (s t : Term)
  | disconnect (s t : Term)
  | witness (ty : Ty)
  | hidden
  | jet (id : Nat)

/-- Parse a value of the given type from exactly `bitsize` bits: a
discriminant bit followed by deterministic padding before the payload for
sums, concatenation for products (spec §4.4). -/
def parseExact : Ty → List Bool → Option Value
  | .unit, [] => some .unit
  | .unit, _ => none
  | .sum _ _, [] => none
  | .sum a b, bit :: rest =>
      if bit then (parseExact b (rest.drop (max a.bitsize b.bitsize - b.bitsize))).map .inr
      else (parseExact a (rest.drop (max a.bitsize b.bitsize - a.bitsize))).map .inl
  | .prod a b, l =>
      match parseExact a (l.take a.bitsize), parseExact b (l.drop a.bitsize) with
      | some va, some vb => some (.pair va vb)
      | _, _ => none

/-- A `witness` node consumes the next `bitsize ty` bits of the witness
stream and decodes them at type `ty`; too few bits is a failure (spec
§4.4/§3 "Witness"). -/
def decodeWit (ty : Ty) (w : List Bool) : Option (Value × List Bool) :=
  if ty.bitsize ≤ w.length then
    match parseExact ty (w.take ty.bitsize) with
    | some v => some (v, w.drop ty.bitsize)
    | none => none
  else none

/-- Result of one execution: an output value plus the unconsumed witness
suffix, or a runtime failure (assertion failure or jet-reported invalid
input, spec §4.4). -/
inductive Outcome where
  | ok (v : Value) (rest : List Bool)
  | fail

/-- Modelled from the spec: big-step execution of the Bit Machine (§4.4),
relating a term, an input value and a witness stream to an outcome.  `jets`
is the jet table (§4.5), an abstract map from index and input to a native
result; `rep` is the deterministic representation (the §4.3 commitment) of a
sub-expression as a value, which `disconnect` hands to its first child
alongside the auxiliary input.  Executing a `hidden` branch is the
unreachable-branch assertion failure; failures of sub-executions
propagate. -/
inductive Eval (jets : Nat → Value → Option Value) (rep : Term → Value) :
    Term → Value → List Bool → Outcome → Prop where
  | unit : ∀ v w, Eval jets rep .unit v w (.ok .unit w)
  | iden : ∀ v w, Eval jets rep .iden v w (.ok v w)
  | injl_ok : ∀ {t v w v' w'}, Eval jets rep t v w (.ok v' w') →
      Eval jets rep (.injl t) v w (.ok (.inl v') w')
  | injl_fail : ∀ {t v w}, Eval jets rep t v w .fail → Eval jets rep (.injl t) v w .fail
  | injr_ok : ∀ {t v w v' w'}, Eval jets rep t v w (.ok v' w') →
      Eval jets rep (.injr t) v w (.ok (.inr v') w')
  | injr_fail : ∀ {t v w}, Eval jets rep t v w .fail → Eval jets rep (.injr t) v w .fail
  | take : ∀ {t a b w o}, Eval jets rep t a w o → Eval jets rep (.take t) (.pair a b) w o
  | drop : ∀ {t a b w o}, Eval jets rep t b w o → Eval jets rep (.drop t) (.pair a b) w o
  | comp_ok : ∀ {s t v w u w' o}, Eval jets rep s v w (.ok u w') → Eval jets rep t u w' o →
      Eval jets rep (.comp s t) v w o
  | comp_fail : ∀ {s t v w}, Eval jets rep s v w .fail → Eval jets rep (.comp s t) v w .fail
  | pair_ok : ∀ {s t v w a w' b w''}, Eval jets rep s v w (.ok a w') →
      Eval jets rep t v w' (.ok b w'') → Eval jets rep (.pair s t) v w (.ok (.pair a b) w'')
  | pair_fail1 : ∀ {s t v w}, Eval jets rep s v w .fail → Eval jets rep (.pair s t) v w .fail
  | pair_fail2 : ∀ {s t v w a w'}, Eval jets rep s v w (.ok a w') → Eval jets rep t v w' .fail →
      Eval jets rep (.pair s t) v w .fail
  | case_left : ∀ {s t a c w o}, Eval jets rep s (.pair a c) w o →
      Eval jets rep (.case s t) (.pair (.inl a) c) w o
  | case_right : ∀ {s t b c w o}, Eval jets rep t (.pair b c) w o →
      Eval jets rep (.case s t) (.pair (.inr b) c) w o
  | disconnect_ok : ∀ {s t a w b c w' d w''},
      Eval jets rep s (.pair (rep t) a) w (.ok (.pair b c) w') →
      Eval jets rep t c w' (.ok d w'') →
      Eval jets rep (.disconnect s t) a w (.ok (.pair b d) w'')
  | disconnect_fail1 : ∀ {s t a w},
      Eval jets rep s (.pair (rep t) a) w .fail →
      Eval jets rep (.disconnect s t) a w .fail
  | disconnect_fail2 : ∀ {s t a w b c w'},
      Eval jets rep s (.pair (rep t) a) w (.ok (.pair b c) w') →
      Eval jets rep t c w' .fail →
      Eval jets rep (.disconnect s t) a w .fail
  | witness_ok : ∀ {ty v w v' w'}, decodeWit ty w = some (v', w') →
      Eval jets rep (.witness ty) v w (.ok v' w')
  | witness_fail : ∀ {ty v w}, decodeWit ty w = none → Eval jets rep (.witness ty) v w .fail
  | hidden : ∀ v w, Eval jets rep .hidden v w .fail
  | jet_ok : ∀ {id v w v'}, jets id v = some v' → Eval jets rep (.jet id) v w (.ok v' w)
  | jet_fail : ∀ {id v w}, jets id v = none → Eval jets rep (.jet id) v w .fail

/-- C7: execution is deterministic.  For every jet table, every
sub-expression representation and every term (the full combinator set,
`disconnect` included), input value and witness stream, any two executions
reach the same outcome: bit-identical output and witness consumption, or the
same failure. -/
theorem spec_C7 :
    ∀ (jets : Nat → Value → Option Value) (rep : Term → Value) (t : Term)
      (v : Value) (w : List Bool) (o₁ o₂ : Outcome),
      Eval jets rep t v w o₁ → Eval jets rep t v w o₂ → o₁ = o₂ := by
  intro jets rep t v w o₁ o₂ h1
  induction h1 generalizing o₂ with
  | unit v w =>
    intro h2
    cases h2
    rfl
  | iden v w =>
    intro h2
    cases h2
    rfl
  | injl_ok h ih =>
    intro h2
    cases h2 with
    | injl_ok h' => cases ih _ h'; rfl
    | injl_fail h' => cases ih _ h'
  | injl_fail h ih =>
    intro h2
    cases h2 with
    | injl_ok h' => cases ih _ h'
    | injl_fail h' => rfl
  | injr_ok h ih =>
    intro h2
    cases h2 with
    | injr_ok h' => cases ih _ h'; rfl
    | injr_fail h' => cases ih _ h'
  | injr_fail h ih =>
    intro h2
    cases h2 with
    | injr_ok h' => cases ih _ h'
    | injr_fail h' => rfl
  | take h ih =>
    intro h2
    cases h2 with
    | take h' => exact ih _ h'
  | drop h ih =>
    intro h2
    cases h2 with
    | drop h' => exact ih _ h'
  | comp_ok h1' h2' ih1 ih2 =>
    intro h2
    cases h2 with
    | comp_ok g1 g2 =>
      cases ih1 _ g1
      exact ih2 _ g2
    | comp_fail g1 => cases ih1 _ g1
  | comp_fail h ih =>
    intro h2
    cases h2 with
    | comp_ok g1 g2 => cases ih _ g1
    | comp_fail g1 => rfl
  | pair_ok h1' h2' ih1 ih2 =>
    intro h2
    cases h2 with
    | pair_ok g1 g2 =>
      cases ih1 _ g1
      cases ih2 _ g2
      rfl
    | pair_fail1 g1 => cases ih1 _ g1
    | pair_fail2 g1 g2 =>
      cases ih1 _ g1
      cases ih2 _ g2
  | pair_fail1 h ih =>
    intro h2
    cases h2 with
    | pair_ok g1 g2 => cases ih _ g1
    | pair_fail1 g1 => rfl
    | pair_fail2 g1 g2 => cases ih _ g1
  | pair_fail2 h1' h2' ih1 ih2 =>
    intro h2
    cases h2 with
    | pair_ok g1 g2 =>
      cases ih1 _ g1
      cases ih2 _ g2
    | pair_fail1 g1 => cases ih1 _ g1
    | pair_fail2 g1 g2 => rfl
  | case_left h ih =>
    intro h2
    cases h2 with
    | case_left h' => exact ih _ h'
  | case_right h ih =>
    intro h2
    cases h2 with
    | case_right h' => exact ih _ h'
  | disconnect_ok h1' h2' ih1 ih2 =>
    intro h2
    cases h2 with
    | disconnect_ok g1 g2 =>
      cases ih1 _ g1
      cases ih2 _ g2
      rfl
    | disconnect_fail1 g1 => cases ih1 _ g1
    | disconnect_fail2 g1 g2 =>
      cases ih1 _ g1
      cases ih2 _ g2
  | disconnect_fail1 h ih =>
    intro h2
    cases h2 with
    | disconnect_ok g1 g2 => cases ih _ g1
    | disconnect_fail1 g1 => rfl
    | disconnect_fail2 g1 g2 => cases ih _ g1
  | disconnect_fail2 h1' h2' ih1 ih2 =>
    intro h2
    cases h2 with
    | disconnect_ok g1 g2 =>
      cases ih1 _ g1
      cases ih2 _ g2
    | disconnect_fail1 g1 => cases ih1 _ g1
    | disconnect_fail2 g1 g2 => rfl
  | witness_ok h =>
    intro h2
    cases h2 with
    | witness_ok h' =>
      rw [h] at h'
      cases h'
      rfl
    | witness_fail h' => rw [h] at h'; cases h'
  | witness_fail h =>
    intro h2
    cases h2 with
    | witness_ok h' => rw [h] at h'; cases h'
    | witness_fail h' => rfl
  | hidden v w =>
    intro h2
    cases h2
    rfl
  | jet_ok h =>
    intro h2
    cases h2 with
    | jet_ok h' =>
      rw [h] at h'
      cases h'
      rfl
    | jet_fail h' => rw [h] at h'; cases h'
  | jet_fail h =>
    intro h2
    cases h2 with
    | jet_ok h' => rw [h] at h'; cases h'
    | jet_fail h' => rfl

/-- Witness for C7: two executions of `iden` on the empty witness, compared
through the determinism theorem. -/
theorem spec_C7_witness :
    (Outcome.ok Value.unit ([] : List Bool)) = Outcome.ok Value.unit [] :=
  spec_C7 (fun _ _ => none) (fun _ => Value.unit) Term.iden Value.unit [] _ _
    (Eval.iden Value.unit []) (Eval.iden Value.unit [])

end Simplicity
